import Mathlib

/-!
Shallow embedding of `arguments.py` (module `Simple` and its module-level
helpers).  The module splits `sys.argv` into a command name followed by
argument tokens, and classifies every argument token with two anchored
regular expressions:

  flag_pattern   = r"-(\w+)"
  option_pattern = r"--(\w+)(?:=(\S+))?"

matched with `re.match` (anchored at the start of the token only, trailing
characters are ignored).  `\w` is the ASCII word class `[A-Za-z0-9_]` and
`\S` is the complement of the ASCII whitespace class.  Strings are embedded
as `String` / `List Char`; the Python dict `self.options` is embedded as an
association list with insert-or-overwrite update; Python exceptions are
embedded as an `Except PyErr` result.
-/

set_option linter.unusedVariables false

namespace Args

/-- Python 2 ASCII `\w`: letters, digits and underscore. -/
def isWordChar (c : Char) : Bool := c.isAlpha || c.isDigit || c == '_'

/-- Python 2 ASCII `\s`: the six whitespace characters. -/
def isSpaceChar (c : Char) : Bool :=
  c == ' ' || c == '\t' || c == '\n' || c == '\r' || c == '\x0b' || c == '\x0c'

/-- `re.match(r"-(\w+)", arg)`: succeeds when the token starts with `-`
followed by at least one word character; returns the maximal word-character
run (the single group of the pattern).  Trailing characters are not
required to match. -/
def flagMatch : List Char → Option (List Char)
  | '-' :: rest =>
    let run := rest.takeWhile isWordChar
    if run.isEmpty then none else some run
  | _ => none

/-- `re.match(r"--(\w+)(?:=(\S+))?", arg)`: succeeds when the token starts
with `--` followed by at least one word character; the name group is the
maximal word-character run, and the optional value group matches only when
the run is followed by `=` and at least one non-space character (the value
is then the maximal non-space run).  Trailing characters are not required
to match. -/
def optionMatch : List Char → Option (List Char × Option (List Char))
  | '-' :: '-' :: rest =>
    let name := rest.takeWhile isWordChar
    if name.isEmpty then none
    else
      match rest.dropWhile isWordChar with
      | '=' :: t =>
        let v := t.takeWhile (fun c => !isSpaceChar c)
        if v.isEmpty then some (name, none) else some (name, some v)
      | _ => some (name, none)
  | _ => none

/-- Python exception classes that the embedded operations can raise. -/
inductive PyErr
  | indexError
  | assertionError
  | attributeError
deriving DecidableEq, Repr

/-- The state built by `Simple.__init__`. -/
structure Simple where
  command : String
  flags : List String
  options : List (String × Option String)
  positional : List String
deriving DecidableEq, Repr

/-- `d[k] = v` on a Python dict embedded as an association list:
overwrite the existing entry for `k`, or append a new one. -/
def dictSet (d : List (String × Option String)) (k : String) (v : Option String) :
    List (String × Option String) :=
  if d.any (fun p => p.1 == k) then
    d.map (fun p => if p.1 == k then (k, v) else p)
  else d ++ [(k, v)]

/-- `d.get(k)` returning `some value` when the key is present. -/
def dictGet (d : List (String × Option String)) (k : String) : Option (Option String) :=
  (d.find? (fun p => p.1 == k)).map (fun p => p.2)

/-- `k in d` on a Python dict. -/
def dictHasKey (d : List (String × Option String)) (k : String) : Bool :=
  d.any (fun p => p.1 == k)

/-- The loop body of `Simple.__init__`: try `flag_pattern.match`, then
`option_pattern.match`, and otherwise record the token as positional.
On a flag match the code runs
`characters = [flag for flag in flag_match.groups()]` and extends
`self.flags` with it; `groups()` of the single-group pattern is the
one-element tuple holding the whole word run, so exactly one string (the
run) is appended.  On an option match the name is mapped to the value
group (which is `None` when the value part did not match). -/
def classifyStep (s : Simple) (arg : String) : Simple :=
  match flagMatch arg.toList with
  | some run => { s with flags := s.flags ++ [String.mk run] }
  | none =>
    match optionMatch arg.toList with
    | some (name, value) =>
      { s with options := dictSet s.options (String.mk name) (value.map String.mk) }
    | none => { s with positional := s.positional ++ [arg] }

/-- `Simple.__init__`: pop the command name off the front of `argv`
(raising on an empty vector, hence `Option`) and classify every remaining
token in order. -/
def Simple.new : List String → Option Simple
  | [] => none
  | cmd :: args => some (args.foldl classifyStep ⟨cmd, [], [], []⟩)

def Simple.get_command (s : Simple) : String := s.command

def Simple.get_flags (s : Simple) : List String := s.flags

def Simple.get_positional (s : Simple) : List String := s.positional

def Simple.has_flag (s : Simple) (name : String) : Bool := s.flags.contains name

def Simple.get_flag {α : Type} (s : Simple) (name : String) (yes no : α) : α :=
  if s.has_flag name then yes else no

def Simple.has_option (s : Simple) (name : String) : Bool := dictHasKey s.options name

/-- `Simple.get_option`.  When `values` is supplied the code first does
`default = values[0]` (an `IndexError` on an empty list), then looks the
option up with that default, applies `cast`, and asserts membership of the
result in `values`.  Values in the embedding stay in `Option String`
(a stored absent value is `none`), so `cast` maps `Option String` to
`Option String`. -/
def Simple.get_option (s : Simple) (name : String) (default : Option String)
    (values : Option (List (Option String))) (cast : Option String → Option String) :
    Except PyErr (Option String) :=
  match values with
  | none => .ok (cast ((dictGet s.options name).getD default))
  | some [] => .error .indexError
  | some (v0 :: vs) =>
    let value := cast ((dictGet s.options name).getD v0)
    if (v0 :: vs).contains value then .ok value else .error .assertionError

def Simple.get_options (s : Simple) : List (String × Option String) := s.options

/-- `Simple.get_index`: Python list indexing `self.positional[index]`,
with negative indices counting from the end and `IndexError` outside
`-len ≤ index < len`. -/
def Simple.get_index (s : Simple) (i : Int) : Except PyErr String :=
  let j : Int := if i < 0 then i + s.positional.length else i
  if j < 0 then .error .indexError
  else
    match s.positional.get? j.toNat with
    | some v => .ok v
    | none => .error .indexError

/-- `Simple.has_any`: the loop returns `True` as soon as one name is a
flag or an option key, `False` after exhausting the list. -/
def Simple.has_any (s : Simple) (names : List String) : Bool :=
  names.any (fun n => s.has_flag n || s.has_option n)

/-- `Simple.has_all`: the loop skips names that are flags or option keys
and returns `False` at the first name that is neither. -/
def Simple.has_all (s : Simple) (names : List String) : Bool :=
  names.all (fun n => s.has_flag n || s.has_option n)

/-- Module-level `command(strip=True)`: the `strip` parameter is accepted
but the body only returns `parser.get_command()`. -/
def command (p : Simple) (strip : Bool) : String := p.get_command

/-- Attribute names defined on a `Simple` instance: the instance
attributes assigned in `__init__` plus the methods of the class. -/
def simpleAttrNames : List String :=
  ["arguments", "command", "flags", "options", "positional",
   "get_command", "get_flags", "get_positional", "has_flag", "get_flag",
   "has_option", "get_option", "get_options", "get_index", "has_any", "has_all"]

/-- Python attribute dispatch for `parser.index(i)`: an `AttributeError`
when the class defines no attribute named `index` (the branch applying the
attribute is unreachable, since `simpleAttrNames` has no such name). -/
def callIndexMethod (p : Simple) (i : Int) : Except PyErr String :=
  if simpleAttrNames.contains "index" then p.get_index i else .error .attributeError

/-- Module-level `first()`: `parser.index(0)`. -/
def first (p : Simple) : Except PyErr String := callIndexMethod p 0

/-- Module-level `second()`: `parser.index(1)`. -/
def second (p : Simple) : Except PyErr String := callIndexMethod p 1

/-- Module-level `third()`: `parser.index(2)`. -/
def third (p : Simple) : Except PyErr String := callIndexMethod p 2

/-- `"-%c" % character`: the flag token built by `check_arguments`. -/
def flagToken (c : Char) : String := String.mk ['-', c]

/-- The option token built by `check_arguments`: `"--%s" % name`, with
`"=%s" % value` appended only when the value is truthy (so a `None` value
and an empty-string value both produce a bare `--name`). -/
def optToken (p : String × Option String) : String :=
  match p.2 with
  | some v => if v ≠ "" then "--" ++ p.1 ++ "=" ++ v else "--" ++ p.1
  | none => "--" ++ p.1

/-- The token vector built by `check_arguments` in the module self-test:
the command, the positional tokens, one `-c` token per flag character, and
one `--name=value` (or `--name` when the value is falsy) token per
option. -/
def buildTokens (cmd : String) (positional : List String) (flags : List Char)
    (options : List (String × Option String)) : List String :=
  [cmd] ++ positional ++ flags.map flagToken ++ options.map optToken

/-! ### Helper lemmas about the regular-expression matchers -/

lemma takeWhile_dropWhile_boundary (p : Char → Bool) (xs ys : List Char)
    (h1 : ∀ c ∈ xs, p c = true) (h2 : ∀ c, ys.head? = some c → p c = false) :
    (xs ++ ys).takeWhile p = xs ∧ (xs ++ ys).dropWhile p = ys := by
  induction xs with
  | nil =>
    simp only [List.nil_append]
    cases ys with
    | nil => simp
    | cons y ys =>
      have hy := h2 y rfl
      simp [List.takeWhile_cons, List.dropWhile_cons, hy]
  | cons x xs ih =>
    have hx : p x = true := h1 x (by simp)
    have ih' := ih (fun c hc => h1 c (by simp [hc]))
    simp [List.takeWhile_cons, List.dropWhile_cons, hx, ih'.1, ih'.2]

lemma flagMatch_run (run rest : List Char) (hne : run ≠ [])
    (hw : ∀ c ∈ run, isWordChar c = true)
    (hb : ∀ c, rest.head? = some c → isWordChar c = false) :
    flagMatch ('-' :: (run ++ rest)) = some run := by
  have h := takeWhile_dropWhile_boundary isWordChar run rest hw hb
  simp [flagMatch, h.1, hne]

lemma flagMatch_dashdash (rest : List Char) :
    flagMatch ('-' :: '-' :: rest) = none := by
  have h : isWordChar '-' = false := by decide
  simp [flagMatch, List.takeWhile_cons, h]

lemma optionMatch_noValue (name rest : List Char) (hne : name ≠ [])
    (hw : ∀ c ∈ name, isWordChar c = true)
    (hb : ∀ c, rest.head? = some c → isWordChar c = false ∧ c ≠ '=') :
    optionMatch ('-' :: '-' :: (name ++ rest)) = some (name, none) := by
  have h := takeWhile_dropWhile_boundary isWordChar name rest hw
    (fun c hc => (hb c hc).1)
  have hE : name.isEmpty = false := by
    cases name with
    | nil => exact absurd rfl hne
    | cons a l => rfl
  simp only [optionMatch, h.1, h.2, hE, Bool.false_eq_true, if_false]
  split
  · next t =>
    exact absurd rfl (hb '=' rfl).2
  · rfl

lemma optionMatch_plainName (name : List Char) (hne : name ≠ [])
    (hw : ∀ c ∈ name, isWordChar c = true) :
    optionMatch ('-' :: '-' :: name) = some (name, none) := by
  have h := optionMatch_noValue name [] hne hw (fun c hc => by simp at hc)
  rw [List.append_nil] at h
  exact h

lemma optionMatch_withValue (name v : List Char) (hne : name ≠ [])
    (hw : ∀ c ∈ name, isWordChar c = true) (hv : v ≠ [])
    (hvs : ∀ c ∈ v, isSpaceChar c = false) :
    optionMatch ('-' :: '-' :: (name ++ '=' :: v)) = some (name, some v) := by
  have heq : isWordChar '=' = false := by decide
  have h := takeWhile_dropWhile_boundary isWordChar name ('=' :: v) hw
    (fun c hc => by
      simp only [List.head?_cons, Option.some.injEq] at hc
      cases hc
      exact heq)
  have hval := takeWhile_dropWhile_boundary (fun c => !isSpaceChar c) v []
    (fun c hc => by simp [hvs c hc]) (fun c hc => by simp at hc)
  have hval1 : v.takeWhile (fun c => !isSpaceChar c) = v := by simpa using hval.1
  have hE : name.isEmpty = false := by
    cases name with
    | nil => exact absurd rfl hne
    | cons a l => rfl
  have hvE : v.isEmpty = false := by
    cases v with
    | nil => exact absurd rfl hv
    | cons a l => rfl
  simp only [optionMatch, h.1, h.2, hE, Bool.false_eq_true, if_false]
  show (if (v.takeWhile fun c => !isSpaceChar c).isEmpty then some (name, none)
        else some (name, some (v.takeWhile fun c => !isSpaceChar c))) = some (name, some v)
  rw [hval1]
  simp [hvE]

/-! ### Helper lemmas about one classification step -/

lemma classifyStep_flag {s : Simple} {arg : String} {run : List Char}
    (h : flagMatch arg.toList = some run) :
    classifyStep s arg = { s with flags := s.flags ++ [String.mk run] } := by
  have h' : flagMatch arg.data = some run := h
  simp [classifyStep, h']

lemma classifyStep_option {s : Simple} {arg : String} {name : List Char}
    {value : Option (List Char)}
    (h1 : flagMatch arg.toList = none) (h2 : optionMatch arg.toList = some (name, value)) :
    classifyStep s arg =
      { s with options := dictSet s.options (String.mk name) (value.map String.mk) } := by
  have h1' : flagMatch arg.data = none := h1
  have h2' : optionMatch arg.data = some (name, value) := h2
  simp [classifyStep, h1', h2']

lemma classifyStep_positional {s : Simple} {arg : String}
    (h1 : flagMatch arg.toList = none) (h2 : optionMatch arg.toList = none) :
    classifyStep s arg = { s with positional := s.positional ++ [arg] } := by
  have h1' : flagMatch arg.data = none := h1
  have h2' : optionMatch arg.data = none := h2
  simp [classifyStep, h1', h2']

@[simp] lemma toList_mk (l : List Char) : (String.mk l).toList = l := rfl

@[simp] lemma mk_toList (s : String) : String.mk s.toList = s := rfl

lemma toList_ne_nil (s : String) (h : s ≠ "") : s.toList ≠ [] := by
  intro hd
  apply h
  cases s with
  | mk d => cases hd; rfl

/-! ### Dictionary lemmas -/

lemma dictSet_fresh (d : List (String × Option String)) (k : String) (v : Option String)
    (h : dictHasKey d k = false) : dictSet d k v = d ++ [(k, v)] := by
  have h' : d.any (fun p => p.1 == k) = false := h
  simp [dictSet, h']

lemma dictHasKey_append (d e : List (String × Option String)) (k : String) :
    dictHasKey (d ++ e) k = (dictHasKey d k || dictHasKey e k) := by
  simp [dictHasKey]

lemma find?_of_pairwise (opts : List (String × Option String))
    (hpw : opts.Pairwise (fun p q => p.1 ≠ q.1)) :
    ∀ p ∈ opts, opts.find? (fun q => q.1 == p.1) = some p := by
  induction opts with
  | nil => intro p hp; simp at hp
  | cons q opts ih =>
    intro p hp
    rw [List.pairwise_cons] at hpw
    rcases List.mem_cons.mp hp with rfl | hmem
    · rw [List.find?_cons_of_pos]
      simp
    · have hne : q.1 ≠ p.1 := hpw.1 p hmem
      rw [List.find?_cons_of_neg _ (by simpa using hne)]
      exact ih hpw.2 p hmem

lemma dictGet_of_pairwise (opts : List (String × Option String))
    (hpw : opts.Pairwise (fun p q => p.1 ≠ q.1)) (p : String × Option String)
    (hp : p ∈ opts) : dictGet opts p.1 = some p.2 := by
  simp [dictGet, find?_of_pairwise opts hpw p hp]

/-! ### The tokens produced by `check_arguments` and how they classify -/

/-- The shape of an option entry whose `check_arguments` token survives the
round trip: a nonempty word-character name and a value that is either
absent or a nonempty whitespace-free string. -/
def wfOptionPair (p : String × Option String) : Prop :=
  p.1 ≠ "" ∧ (∀ c ∈ p.1.toList, isWordChar c = true) ∧
    ∀ v, p.2 = some v → v ≠ "" ∧ ∀ c ∈ v.toList, isSpaceChar c = false

instance (p : String × Option String) : Decidable (wfOptionPair p) := by
  unfold wfOptionPair
  infer_instance

lemma flagMatch_flagToken (c : Char) (hw : isWordChar c = true) :
    flagMatch (flagToken c).toList = some [c] := by
  have h := flagMatch_run [c] [] (by simp) (by simpa using hw)
    (fun d hd => by simp at hd)
  simpa [flagToken] using h

lemma optToken_matches (p : String × Option String) (h : wfOptionPair p) :
    flagMatch (optToken p).toList = none ∧
    optionMatch (optToken p).toList = some (p.1.toList, p.2.map String.toList) := by
  obtain ⟨hne, hw, hv⟩ := h
  have hnil : p.1.toList ≠ [] := toList_ne_nil p.1 hne
  cases hp2 : p.2 with
  | none =>
    have hL : (optToken p).toList = '-' :: '-' :: p.1.toList := by
      simp [optToken, hp2]
    rw [hL]
    exact ⟨flagMatch_dashdash _, by rw [optionMatch_plainName p.1.toList hnil hw]; simp⟩
  | some v =>
    obtain ⟨hvne, hvs⟩ := hv v hp2
    have hL : (optToken p).toList = '-' :: '-' :: (p.1.toList ++ '=' :: v.toList) := by
      simp [optToken, hp2, hvne, List.append_assoc]
    rw [hL]
    refine ⟨flagMatch_dashdash _, ?_⟩
    rw [optionMatch_withValue p.1.toList v.toList hnil hw (toList_ne_nil v hvne) hvs]
    simp

/-! ### Folding the classifier over blocks of tokens -/

lemma foldl_positionalTokens (ps : List String) : ∀ s : Simple,
    (∀ t ∈ ps, flagMatch t.toList = none ∧ optionMatch t.toList = none) →
    ps.foldl classifyStep s = { s with positional := s.positional ++ ps } := by
  induction ps with
  | nil => intro s _; simp
  | cons a ps ih =>
    intro s h
    have ha := h a (by simp)
    simp only [List.foldl_cons]
    rw [classifyStep_positional ha.1 ha.2, ih _ (fun t ht => h t (by simp [ht]))]
    simp

lemma foldl_flagTokens (cs : List Char) : ∀ s : Simple,
    (∀ c ∈ cs, isWordChar c = true) →
    (cs.map flagToken).foldl classifyStep s =
      { s with flags := s.flags ++ cs.map (fun c => String.mk [c]) } := by
  induction cs with
  | nil => intro s _; simp
  | cons c cs ih =>
    intro s h
    simp only [List.map_cons, List.foldl_cons]
    rw [classifyStep_flag (flagMatch_flagToken c (h c (by simp))),
      ih _ (fun d hd => h d (by simp [hd]))]
    simp

lemma foldl_optionTokens (opts : List (String × Option String)) : ∀ s : Simple,
    (∀ p ∈ opts, wfOptionPair p) →
    (∀ p ∈ opts, dictHasKey s.options p.1 = false) →
    opts.Pairwise (fun p q => p.1 ≠ q.1) →
    (opts.map optToken).foldl classifyStep s = { s with options := s.options ++ opts } := by
  induction opts with
  | nil => intro s _ _ _; simp
  | cons p opts ih =>
    intro s hwf hfresh hpw
    rw [List.pairwise_cons] at hpw
    obtain ⟨hm1, hm2⟩ := optToken_matches p (hwf p (by simp))
    simp only [List.map_cons, List.foldl_cons]
    rw [classifyStep_option hm1 hm2]
    have hval : ((p.2.map String.toList).map String.mk) = p.2 := by
      cases p.2 <;> rfl
    have hset : dictSet s.options (String.mk p.1.toList) ((p.2.map String.toList).map String.mk) =
        s.options ++ [p] := by
      rw [hval, mk_toList, dictSet_fresh _ _ _ (hfresh p (by simp))]
    rw [hset]
    rw [ih _ (fun q hq => hwf q (by simp [hq]))
      (fun q hq => by
        have h1 : dictHasKey s.options q.1 = false := hfresh q (by simp [hq])
        have h2 : (p.1 == q.1) = false := by
          simpa using hpw.1 q hq
        rw [dictHasKey_append, h1]
        simp only [Bool.false_or]
        show (List.any [p] fun r => r.1 == q.1) = false
        simp [h2])
      hpw.2]
    simp

/-- Tokens that neither the flag pattern nor the option pattern matches
are recorded as positional. -/
def isPositionalToken (t : String) : Bool :=
  (flagMatch t.toList).isNone && (optionMatch t.toList).isNone

lemma positional_foldl (args : List String) : ∀ s : Simple,
    (args.foldl classifyStep s).positional =
      s.positional ++ args.filter isPositionalToken := by
  induction args with
  | nil => intro s; simp
  | cons a args ih =>
    intro s
    simp only [List.foldl_cons]
    rw [ih]
    cases hf : flagMatch a.toList with
    | some run =>
      have hf' : flagMatch a.data = some run := hf
      rw [classifyStep_flag hf]
      simp [List.filter_cons, isPositionalToken, hf']
    | none =>
      have hf' : flagMatch a.data = none := hf
      cases ho : optionMatch a.toList with
      | some q =>
        obtain ⟨nm, vl⟩ := q
        have ho' : optionMatch a.data = some (nm, vl) := ho
        rw [classifyStep_option hf ho]
        simp [List.filter_cons, isPositionalToken, hf', ho']
      | none =>
        have ho' : optionMatch a.data = none := ho
        rw [classifyStep_positional hf ho]
        simp [List.filter_cons, isPositionalToken, hf', ho']

/-! ### Lemmas about updates and retrieval on the option dict -/

lemma find?_map_update (d : List (String × Option String)) (k : String) (v : Option String)
    (h : d.any (fun p => p.1 == k) = true) :
    (d.map (fun p => if p.1 == k then (k, v) else p)).find? (fun p => p.1 == k)
      = some (k, v) := by
  induction d with
  | nil => simp at h
  | cons p d ih =>
    by_cases hp : (p.1 == k) = true
    · simp only [List.map_cons, if_pos hp]
      rw [List.find?_cons_of_pos]
      simp
    · simp only [List.map_cons, if_neg hp]
      rw [List.find?_cons_of_neg _ (by simpa using hp)]
      apply ih
      simpa [List.any_cons, hp] using h

lemma dictGet_append_fresh (d : List (String × Option String)) (k : String) (v : Option String)
    (h : dictHasKey d k = false) : dictGet (d ++ [(k, v)]) k = some v := by
  induction d with
  | nil => simp [dictGet]
  | cons p d ih =>
    have h' : (p.1 == k) = false ∧ dictHasKey d k = false := by
      simpa [dictHasKey, List.any_cons, Bool.or_eq_false_iff] using h
    unfold dictGet
    rw [List.cons_append, List.find?_cons_of_neg _ (by simp [h'.1])]
    exact ih h'.2

lemma dictGet_dictSet_self (d : List (String × Option String)) (k : String) (v : Option String) :
    dictGet (dictSet d k v) k = some v := by
  by_cases h : dictHasKey d k
  · have h' : d.any (fun p => p.1 == k) = true := h
    unfold dictSet
    rw [if_pos h']
    unfold dictGet
    rw [find?_map_update d k v h']
    rfl
  · have h' : dictHasKey d k = false := by simpa using h
    rw [dictSet_fresh d k v h']
    exact dictGet_append_fresh d k v h'

lemma dictHasKey_dictSet_self (d : List (String × Option String)) (k : String) (v : Option String) :
    dictHasKey (dictSet d k v) k = true := by
  have h := dictGet_dictSet_self d k v
  unfold dictGet at h
  unfold dictHasKey
  rw [List.any_eq_true]
  cases hf : (dictSet d k v).find? (fun p => p.1 == k) with
  | none => rw [hf] at h; simp at h
  | some q =>
    refine ⟨q, List.mem_of_find?_eq_some hf, ?_⟩
    have hq := List.find?_some hf
    exact hq

/-! ### Failure characterization of `get_option` and `get_index` -/

lemma get_option_error_iff (s : Simple) (name : String) (default : Option String)
    (values : Option (List (Option String))) (cast : Option String → Option String)
    (e : PyErr) :
    s.get_option name default values cast = .error e ↔
      (values = some [] ∧ e = PyErr.indexError) ∨
      (∃ v0 vs, values = some (v0 :: vs) ∧ e = PyErr.assertionError ∧
        (v0 :: vs).contains (cast ((dictGet s.options name).getD v0)) = false) := by
  cases values with
  | none =>
    simp only [Simple.get_option]
    constructor
    · intro he
      exact absurd he (by simp)
    · rintro (⟨h, _⟩ | ⟨v0, vs, h, _⟩) <;> cases h
  | some l =>
    cases l with
    | nil =>
      simp only [Simple.get_option]
      constructor
      · intro he
        injection he with he'
        exact Or.inl ⟨by simp, he'.symm⟩
      · rintro (⟨_, he⟩ | ⟨v0, vs, h, _⟩)
        · rw [he]
        · exact absurd h (by simp)
    | cons v0 vs =>
      simp only [Simple.get_option]
      by_cases hc : (v0 :: vs).contains (cast ((dictGet s.options name).getD v0)) = true
      · rw [if_pos hc]
        constructor
        · intro he
          exact absurd he (by simp)
        · rintro (⟨h, _⟩ | ⟨v0', vs', h, _, hcf⟩)
          · exact absurd h (by simp)
          · injection h with h2
            injection h2 with h3 h4
            subst h3
            subst h4
            rw [hc] at hcf
            exact absurd hcf (by decide)
      · rw [if_neg hc]
        have hc' : (v0 :: vs).contains (cast ((dictGet s.options name).getD v0)) = false := by
          simpa using hc
        constructor
        · intro he
          injection he with he'
          exact Or.inr ⟨v0, vs, rfl, he'.symm, hc'⟩
        · rintro (⟨h, _⟩ | ⟨v0', vs', h, he, hcf⟩)
          · exact absurd h (by simp)
          · rw [he]

lemma get_index_of_get? (s : Simple) (n : Nat) (v : String)
    (h : s.positional.get? n = some v) : s.get_index (n : Int) = .ok v := by
  have h0 : ¬((n : Int) < 0) := by omega
  simp only [Simple.get_index, if_neg h0]
  have ht : ((n : Int)).toNat = n := Int.toNat_natCast n
  rw [ht, h]

lemma get_index_error_iff (s : Simple) (i : Int) (e : PyErr) :
    s.get_index i = .error e ↔
      e = PyErr.indexError ∧
        (i < -(s.positional.length : Int) ∨ (s.positional.length : Int) ≤ i) := by
  simp only [Simple.get_index]
  by_cases h1 : i < 0
  · simp only [if_pos h1]
    by_cases h2 : i + (s.positional.length : Int) < 0
    · simp only [if_pos h2]
      constructor
      · intro he
        injection he with he'
        exact ⟨he'.symm, Or.inl (by omega)⟩
      · intro ⟨he, _⟩
        rw [he]
    · simp only [if_neg h2]
      cases hg : s.positional.get? (i + (s.positional.length : Int)).toNat with
      | some v =>
        simp only [hg]
        constructor
        · intro he
          exact absurd he (by simp)
        · intro ⟨_, hr⟩
          exfalso
          omega
      | none =>
        exfalso
        have hlen : s.positional.length ≤ (i + (s.positional.length : Int)).toNat :=
          List.get?_eq_none.mp hg
        omega
  · simp only [if_neg h1]
    cases hg : s.positional.get? i.toNat with
    | some v =>
      simp only [hg]
      obtain ⟨hlt, _⟩ := List.get?_eq_some.mp hg
      constructor
      · intro he
        exact absurd he (by simp)
      · intro ⟨_, hr⟩
        exfalso
        omega
    | none =>
      simp only [hg]
      have hlen : s.positional.length ≤ i.toNat := List.get?_eq_none.mp hg
      constructor
      · intro he
        injection he with he'
        exact ⟨he'.symm, Or.inr (by omega)⟩
      · intro ⟨he, _⟩
        rw [he]

/-! ### Effect shapes of a single classification step, for the
exclusivity claim -/

/-- The step touched only the flag list (and strictly extended it). -/
def FlagEffect (s s' : Simple) : Prop :=
  s'.flags ≠ s.flags ∧ s'.options = s.options ∧ s'.positional = s.positional

/-- The step touched only the option dict, installing one entry. -/
def OptionEffect (s s' : Simple) : Prop :=
  s'.flags = s.flags ∧
    (∃ n v, s'.options = dictSet s.options n v ∧ s'.has_option n = true) ∧
    s'.positional = s.positional

/-- The step touched only the positional list, appending the token. -/
def PositionalEffect (s s' : Simple) (t : String) : Prop :=
  s'.flags = s.flags ∧ s'.options = s.options ∧ s'.positional = s.positional ++ [t]

/-! ### Claim theorems -/

/-- C1: evaluation of the constructor at the failing input `-abc`.  The
claim says the token registers three independent flags `a`, `b`, `c`; the
code extends `self.flags` with `flag_match.groups()`, the one-element
tuple `("abc",)`, so a single flag `abc` is registered and `has_flag`
fails on each individual character. -/
theorem C1_multichar_flag_run_single_entry :
    (Simple.new ["prog", "-abc"]).map
        (fun s => (s.flags, s.has_flag "a", s.has_flag "b", s.has_flag "c", s.has_flag "abc"))
      = some (["abc"], false, false, false, true) := by decide

/-- C2 (counterexample to the claim as stated): an option whose value is
the empty string is emitted by `check_arguments` as a bare `--a` token
(the `if options[name]` truthiness test), so after the round trip the
stored value is the absent marker, not the empty string — the original
mapping is not reproduced and absent is not distinguished from empty. -/
theorem C2_counterexample_empty_string_value :
    (Simple.new (buildTokens "prog" [] [] [("a", some "")])).map
        (fun s => s.get_option "a" none none id)
      = some (.ok none) ∧ (none : Option String) ≠ some "" :=
  ⟨rfl, by decide⟩

/-- C2 (amended): the round trip through `buildTokens` and the classifier
reproduces the command, the positional list in order, the flags up to
membership, and the option mapping key-to-value (absent values included),
provided every positional token matches neither pattern, every flag is a
word character, and every option entry has a nonempty word-character name
and an absent or nonempty whitespace-free value, with distinct names. -/
theorem C2_roundtrip (cmd : String) (positional : List String) (flags : List Char)
    (options : List (String × Option String))
    (hpos : ∀ t ∈ positional, flagMatch t.toList = none ∧ optionMatch t.toList = none)
    (hflags : ∀ c ∈ flags, isWordChar c = true)
    (hopts : ∀ p ∈ options, wfOptionPair p)
    (hkeys : options.Pairwise (fun p q => p.1 ≠ q.1)) :
    ∃ s, Simple.new (buildTokens cmd positional flags options) = some s ∧
      s.get_command = cmd ∧
      s.positional = positional ∧
      s.flags = flags.map (fun c => String.mk [c]) ∧
      (∀ c, s.has_flag (String.mk [c]) = true ↔ c ∈ flags) ∧
      s.options = options ∧
      (∀ n, s.has_option n = true ↔ n ∈ options.map Prod.fst) ∧
      (∀ p ∈ options, s.get_option p.1 none none id = .ok p.2) := by
  have hb : buildTokens cmd positional flags options =
      cmd :: ((positional ++ flags.map flagToken) ++ options.map optToken) := by
    simp [buildTokens]
  have e1 : positional.foldl classifyStep (⟨cmd, [], [], []⟩ : Simple)
      = ⟨cmd, [], [], positional⟩ := by
    rw [foldl_positionalTokens positional _ hpos]
    simp
  have e2 : (flags.map flagToken).foldl classifyStep (⟨cmd, [], [], positional⟩ : Simple)
      = ⟨cmd, flags.map (fun c => String.mk [c]), [], positional⟩ := by
    rw [foldl_flagTokens flags _ hflags]
    simp
  have e3 : (options.map optToken).foldl classifyStep
      (⟨cmd, flags.map (fun c => String.mk [c]), [], positional⟩ : Simple)
      = ⟨cmd, flags.map (fun c => String.mk [c]), options, positional⟩ := by
    rw [foldl_optionTokens options
      (⟨cmd, flags.map (fun c => String.mk [c]), [], positional⟩ : Simple)
      hopts (fun p hp => rfl) hkeys]
    simp
  have hs : ((positional ++ flags.map flagToken) ++ options.map optToken).foldl classifyStep
      (⟨cmd, [], [], []⟩ : Simple)
      = ⟨cmd, flags.map (fun c => String.mk [c]), options, positional⟩ := by
    rw [List.foldl_append, List.foldl_append, e1, e2, e3]
  refine ⟨_, by rw [hb]; rfl, ?_⟩
  rw [hs]
  refine ⟨rfl, rfl, rfl, ?_, rfl, ?_, ?_⟩
  · intro c
    show (flags.map (fun c => String.mk [c])).contains (String.mk [c]) = true ↔ c ∈ flags
    rw [List.elem_iff]
    simp only [List.mem_map]
    constructor
    · rintro ⟨a, ha, hae⟩
      obtain rfl : a = c := by
        have hd := congrArg String.data hae
        simpa using hd
      exact ha
    · intro hc
      exact ⟨c, hc, rfl⟩
  · intro n
    show dictHasKey options n = true ↔ n ∈ options.map Prod.fst
    simp [dictHasKey, List.any_eq_true, List.mem_map]
  · intro p hp
    have hg := dictGet_of_pairwise options hkeys p hp
    show Simple.get_option _ p.1 none none id = .ok p.2
    simp [Simple.get_option, hg]

/-- C2 witness: the amended round trip at a concrete input with a
positional token, two flags, one valued option and one bare option. -/
theorem C2_roundtrip_witness :
    (∀ t ∈ ["in.txt"], flagMatch t.toList = none ∧ optionMatch t.toList = none) ∧
    (∀ c ∈ (['a', 'b'] : List Char), isWordChar c = true) ∧
    (∀ p ∈ [("first", some "1.2"), ("third", (none : Option String))], wfOptionPair p) ∧
    List.Pairwise (fun p q => p.1 ≠ q.1)
      [("first", some "1.2"), ("third", (none : Option String))] ∧
    (∃ s, Simple.new (buildTokens "prog" ["in.txt"] ['a', 'b']
          [("first", some "1.2"), ("third", none)]) = some s ∧
      s.get_command = "prog" ∧
      s.positional = ["in.txt"] ∧
      s.flags = (['a', 'b'] : List Char).map (fun c => String.mk [c]) ∧
      (∀ c, s.has_flag (String.mk [c]) = true ↔ c ∈ (['a', 'b'] : List Char)) ∧
      s.options = [("first", some "1.2"), ("third", none)] ∧
      (∀ n, s.has_option n = true ↔
        n ∈ [("first", some "1.2"), ("third", (none : Option String))].map Prod.fst) ∧
      (∀ p ∈ [("first", some "1.2"), ("third", (none : Option String))],
        s.get_option p.1 none none id = .ok p.2)) :=
  ⟨by decide, by decide, by decide, by decide,
    C2_roundtrip "prog" ["in.txt"] ['a', 'b'] [("first", some "1.2"), ("third", none)]
      (by decide) (by decide) (by decide) (by decide)⟩

/-- C3: every argument token is classified into exactly one of the three
collections — one of the three effect shapes always holds, and no two of
them hold together. -/
theorem C3_classification_exactly_one (s : Simple) (t : String) :
    (FlagEffect s (classifyStep s t) ∨ OptionEffect s (classifyStep s t) ∨
      PositionalEffect s (classifyStep s t) t) ∧
    ¬(FlagEffect s (classifyStep s t) ∧ OptionEffect s (classifyStep s t)) ∧
    ¬(FlagEffect s (classifyStep s t) ∧ PositionalEffect s (classifyStep s t) t) ∧
    ¬(OptionEffect s (classifyStep s t) ∧ PositionalEffect s (classifyStep s t) t) := by
  refine ⟨?_, ?_, ?_, ?_⟩
  · cases hf : flagMatch t.toList with
    | some run =>
      left
      rw [classifyStep_flag hf]
      refine ⟨?_, rfl, rfl⟩
      intro h
      have hl := congrArg List.length h
      simp at hl
    | none =>
      cases ho : optionMatch t.toList with
      | some q =>
        obtain ⟨nm, vl⟩ := q
        right; left
        rw [classifyStep_option hf ho]
        exact ⟨rfl, ⟨String.mk nm, vl.map String.mk, rfl, dictHasKey_dictSet_self _ _ _⟩, rfl⟩
      | none =>
        right; right
        rw [classifyStep_positional hf ho]
        exact ⟨rfl, rfl, rfl⟩
  · rintro ⟨⟨hf, _, _⟩, ⟨hf', _, _⟩⟩
    exact hf hf'
  · rintro ⟨⟨hf, _, _⟩, ⟨hf', _, _⟩⟩
    exact hf hf'
  · rintro ⟨⟨_, _, hp⟩, ⟨_, _, hp'⟩⟩
    rw [hp] at hp'
    have hl := congrArg List.length hp'
    simp at hl

/-- C4: a bare `--name` token (word-character name, no `=`) is recorded
as an option present with the absent value, `has_option` succeeds on it
and the stored value is the absent marker; and the concrete input
`["prog", "--first=1.2", "--second=!?", "--third"]` yields exactly the
expected mapping with no flags and no positionals. -/
theorem C4_bare_option_records_absent_value :
    (∀ (s : Simple) (name : List Char), name ≠ [] → (∀ c ∈ name, isWordChar c = true) →
      classifyStep s (String.mk ('-' :: '-' :: name)) =
        { s with options := dictSet s.options (String.mk name) none }) ∧
    (∀ (d : List (String × Option String)) (k : String),
      dictHasKey (dictSet d k none) k = true ∧ dictGet (dictSet d k none) k = some none) ∧
    (Simple.new ["prog", "--first=1.2", "--second=!?", "--third"]).map
        (fun s => (s.options, s.flags, s.positional, s.has_option "third",
          dictGet s.options "third"))
      = some ([("first", some "1.2"), ("second", some "!?"), ("third", none)],
          [], [], true, some none) := by
  refine ⟨?_, ?_, by decide⟩
  · intro s name hne hw
    have hf : flagMatch (String.mk ('-' :: '-' :: name)).toList = none := by
      rw [toList_mk]; exact flagMatch_dashdash name
    have ho : optionMatch (String.mk ('-' :: '-' :: name)).toList = some (name, none) := by
      rw [toList_mk]; exact optionMatch_plainName name hne hw
    rw [classifyStep_option hf ho]
    rfl
  · intro d k
    exact ⟨dictHasKey_dictSet_self d k none, dictGet_dictSet_self d k none⟩

/-- C4 witness: the bare-option part applied to the token `--third` on
the empty parser state. -/
theorem C4_bare_option_witness :
    (['t', 'h', 'i', 'r', 'd'] ≠ ([] : List Char)) ∧
    (∀ c ∈ (['t', 'h', 'i', 'r', 'd'] : List Char), isWordChar c = true) ∧
    classifyStep ⟨"prog", [], [], []⟩ (String.mk ('-' :: '-' :: ['t', 'h', 'i', 'r', 'd'])) =
      { (⟨"prog", [], [], []⟩ : Simple) with
          options := dictSet [] (String.mk ['t', 'h', 'i', 'r', 'd']) none } :=
  ⟨by decide, by decide,
    C4_bare_option_records_absent_value.1 ⟨"prog", [], [], []⟩ ['t', 'h', 'i', 'r', 'd']
      (by decide) (by decide)⟩

/-- C5 (counterexample to the claim as stated): `get_option` can also
fail with an `IndexError`, not an assertion failure, when
`allowed_values` is supplied but empty — `default = values[0]` runs
before anything else. -/
theorem C5_counterexample_empty_values :
    (Simple.new ["prog"]).map (fun s => s.get_option "x" none (some []) id)
      = some (.error .indexError) ∧ PyErr.indexError ≠ PyErr.assertionError :=
  ⟨rfl, by decide⟩

/-- C5 (amended): complete failure characterization.  `get_option` fails
with an `IndexError` exactly when `allowed_values` is supplied empty, and
with an assertion failure exactly when `allowed_values` is supplied
nonempty and the cast result (defaulting to the first allowed value when
the option is absent) is not a member; `get_index` fails, always with an
`IndexError`, exactly when the index is outside Python's valid range
`-len ≤ i < len`.  No other result is an error. -/
theorem C5_failure_modes (s : Simple) (name : String) (default : Option String)
    (values : Option (List (Option String))) (cast : Option String → Option String)
    (i : Int) (e e' : PyErr) :
    (s.get_option name default values cast = .error e ↔
      (values = some [] ∧ e = PyErr.indexError) ∨
      (∃ v0 vs, values = some (v0 :: vs) ∧ e = PyErr.assertionError ∧
        (v0 :: vs).contains (cast ((dictGet s.options name).getD v0)) = false)) ∧
    (s.get_index i = .error e' ↔
      e' = PyErr.indexError ∧
        (i < -(s.positional.length : Int) ∨ (s.positional.length : Int) ≤ i)) :=
  ⟨get_option_error_iff s name default values cast e, get_index_error_iff s i e'⟩

/-- C6: `has_any` succeeds iff some listed name is a flag or an option
key, and `has_all` succeeds iff every listed name is. -/
theorem C6_has_any_all_membership (s : Simple) (names : List String) :
    (s.has_any names = true ↔ ∃ n ∈ names, n ∈ s.flags ∨ n ∈ s.options.map Prod.fst) ∧
    (s.has_all names = true ↔ ∀ n ∈ names, n ∈ s.flags ∨ n ∈ s.options.map Prod.fst) := by
  constructor
  · simp [Simple.has_any, List.any_eq_true, Simple.has_flag, Simple.has_option, dictHasKey,
      List.mem_map]
  · simp [Simple.has_all, List.all_eq_true, Simple.has_flag, Simple.has_option, dictHasKey,
      List.any_eq_true, List.mem_map]

/-- C7: the positional list is exactly the subsequence of argument tokens
that match neither pattern, in original left-to-right order, and
`get_index` retrieves it in that order. -/
theorem C7_positional_in_original_order (cmd : String) (args : List String) (s : Simple)
    (hs : Simple.new (cmd :: args) = some s) :
    s.positional = args.filter isPositionalToken ∧
    s.positional.Sublist args ∧
    (∀ (n : Nat) (v : String), s.positional.get? n = some v → s.get_index (n : Int) = .ok v) := by
  have hs' : args.foldl classifyStep ⟨cmd, [], [], []⟩ = s := by
    simpa [Simple.new] using hs
  subst hs'
  have h1 : (args.foldl classifyStep ⟨cmd, [], [], []⟩).positional
      = args.filter isPositionalToken := by
    simpa using positional_foldl args ⟨cmd, [], [], []⟩
  refine ⟨h1, ?_, fun n v hv => get_index_of_get? _ n v hv⟩
  rw [h1]
  exact List.filter_sublist args

/-- C7 witness: positional tokens `a` and `c` interleaved with the flag
token `-b` come back in order. -/
theorem C7_positional_witness :
    Simple.new ["prog", "a", "-b", "c"] = some (Simple.mk "prog" ["b"] [] ["a", "c"]) ∧
    ((Simple.mk "prog" ["b"] [] ["a", "c"]).positional
        = ["a", "-b", "c"].filter isPositionalToken ∧
      (Simple.mk "prog" ["b"] [] ["a", "c"]).positional.Sublist ["a", "-b", "c"] ∧
      (∀ (n : Nat) (v : String),
        (Simple.mk "prog" ["b"] [] ["a", "c"]).positional.get? n = some v →
        (Simple.mk "prog" ["b"] [] ["a", "c"]).get_index (n : Int) = .ok v)) :=
  ⟨by decide, C7_positional_in_original_order "prog" ["a", "-b", "c"] _ (by decide)⟩

/-- C8 (counterexample to the claim as stated): requesting the strip mode
on a command name containing a path separator still returns the full
stored name, not the final path segment. -/
theorem C8_counterexample_strip_returns_full_name :
    (Simple.new ["dir/prog", "x"]).map (fun s => command s true) = some "dir/prog" ∧
      "dir/prog" ≠ "prog" := by decide

/-- C8 (amended): the module-level `command` accepts the strip argument
but ignores it — it always returns the stored command name unchanged,
leading path components included (stripping is only planned in the
source comments). -/
theorem C8_strip_argument_ignored :
    (∀ (p : Simple) (b : Bool), command p b = p.get_command) ∧
    (∀ (p : Simple) (b b' : Bool), command p b = command p b') ∧
    (Simple.new ["dir/prog", "x"]).map (fun s => command s true) = some "dir/prog" :=
  ⟨fun p b => rfl, fun p b b' => rfl, by decide⟩

/-- C9: a token whose prefix matches is classified by the matching prefix
with the unmatched tail discarded — `-run…tail` registers the word run as
a flag entry, `--name…tail` (tail not starting with a word character or
`=`) registers the option with absent value — and is never positional;
concretely `-ab.txt` yields the flag `ab` and `--name!rest` the option
`name` with absent value. -/
theorem C9_prefix_match_discards_tail :
    (∀ (s : Simple) (run rest : List Char), run ≠ [] → (∀ c ∈ run, isWordChar c = true) →
      (∀ c, rest.head? = some c → isWordChar c = false) →
      classifyStep s (String.mk ('-' :: (run ++ rest))) =
        { s with flags := s.flags ++ [String.mk run] }) ∧
    (∀ (s : Simple) (name rest : List Char), name ≠ [] → (∀ c ∈ name, isWordChar c = true) →
      (∀ c, rest.head? = some c → isWordChar c = false ∧ c ≠ '=') →
      classifyStep s (String.mk ('-' :: '-' :: (name ++ rest))) =
        { s with options := dictSet s.options (String.mk name) none }) ∧
    (Simple.new ["prog", "-ab.txt", "--name!rest"]).map
        (fun s => (s.flags, s.options, s.positional))
      = some (["ab"], [("name", none)], []) := by
  refine ⟨?_, ?_, by decide⟩
  · intro s run rest hne hw hb
    exact classifyStep_flag (by rw [toList_mk]; exact flagMatch_run run rest hne hw hb)
  · intro s name rest hne hw hb
    have hf : flagMatch (String.mk ('-' :: '-' :: (name ++ rest))).toList = none := by
      rw [toList_mk]; exact flagMatch_dashdash _
    have ho : optionMatch (String.mk ('-' :: '-' :: (name ++ rest))).toList
        = some (name, none) := by
      rw [toList_mk]; exact optionMatch_noValue name rest hne hw hb
    rw [classifyStep_option hf ho]
    rfl

/-- C9 witness: both prefix rules applied at the claim's concrete tokens
`-ab.txt` and `--name!rest` on the empty parser state. -/
theorem C9_prefix_witness :
    ((['a', 'b'] : List Char) ≠ [] ∧ (∀ c ∈ (['a', 'b'] : List Char), isWordChar c = true) ∧
      (∀ c, (['.', 't', 'x', 't'] : List Char).head? = some c → isWordChar c = false)) ∧
    classifyStep ⟨"prog", [], [], []⟩ (String.mk ('-' :: (['a', 'b'] ++ ['.', 't', 'x', 't']))) =
      { (⟨"prog", [], [], []⟩ : Simple) with flags := [] ++ [String.mk ['a', 'b']] } ∧
    classifyStep ⟨"prog", [], [], []⟩
        (String.mk ('-' :: '-' :: (['n', 'a', 'm', 'e'] ++ ['!', 'r', 'e', 's', 't']))) =
      { (⟨"prog", [], [], []⟩ : Simple) with
          options := dictSet [] (String.mk ['n', 'a', 'm', 'e']) none } :=
  ⟨⟨by decide, by decide, by decide⟩,
    C9_prefix_match_discards_tail.1 ⟨"prog", [], [], []⟩ ['a', 'b'] ['.', 't', 'x', 't']
      (by decide) (by decide) (by decide),
    C9_prefix_match_discards_tail.2.1 ⟨"prog", [], [], []⟩ ['n', 'a', 'm', 'e']
      ['!', 'r', 'e', 's', 't'] (by decide) (by decide) (by decide)⟩

/-- C10: the module-level `first`, `second` and `third` call
`parser.index(...)`, an attribute the `Simple` class does not define, so
they always raise an `AttributeError` and never return a positional
argument. -/
theorem C10_first_second_third_attribute_error (p : Simple) :
    first p = .error .attributeError ∧ second p = .error .attributeError ∧
      third p = .error .attributeError := by
  have h : ¬("index" ∈ simpleAttrNames) := by decide
  refine ⟨?_, ?_, ?_⟩ <;> simp [first, second, third, callIndexMethod, h]

end Args
